import Mathlib

/-!
Verification of the synthetic-lethal-set search in `metworkpy/synleth/fastsl.py`.

The embedding models:
* Python floats as `Option ℚ` (`none` models NaN; IEEE comparisons with NaN
  are false, which is all the source relies on),
* a cobra model as the set of currently knocked-out genes,
* the external optimization machinery (`slim_optimize`, pFBA-based
  `_get_potentially_active_genes`) as an abstract `Solver` whose answers
  depend on the knocked-out gene set,
* the `with model as m:` context manager as a combinator that runs a
  (possibly mutating) body and restores the model on exit,
* the worker loop as a fuel-indexed recursion over a FIFO queue
  (`multiprocessing.Manager().Queue()`); the source submits exactly one
  worker task, so the sequential loop is the faithful execution model.

Raised exceptions are modelled with `Except String`; fuel exhaustion of the
loop is `none` (termination is proved separately).
-/

namespace Metworkpy

/-- Decidable equality for `Except`, so concrete runs can be checked by
`decide`. -/
instance {ε α : Type} [DecidableEq ε] [DecidableEq α] :
    DecidableEq (Except ε α) := fun x y =>
  match x, y with
  | .error a, .error b =>
    match decEq a b with
    | isTrue h => isTrue (h ▸ rfl)
    | isFalse h => isFalse fun hh => h (Except.error.inj hh)
  | .error _, .ok _ => isFalse Except.noConfusion
  | .ok _, .error _ => isFalse Except.noConfusion
  | .ok a, .ok b =>
    match decEq a b with
    | isTrue h => isTrue (h ▸ rfl)
    | isFalse h => isFalse fun hh => h (Except.ok.inj hh)

/-- Gene identifiers are opaque strings. -/
abbrev Gene := String

/-- A combination of genes (`set[str]` in the source). -/
abbrev GeneSet := Finset Gene

/-- Python float: `none` models NaN (including the NaN returned by
`slim_optimize(error_value=np.nan)` on an infeasible problem). -/
abbrev PyFloat := Option ℚ

/-- Models `np.isnan`. -/
def isnan : PyFloat → Bool
  | none => true
  | some _ => false

/-- Models the Python `<=` comparison on floats: false whenever either
operand is NaN. -/
def fle : PyFloat → PyFloat → Bool
  | some a, some b => a ≤ b
  | _, _ => false

/-- Models the Python `>` comparison on floats: false whenever either
operand is NaN. -/
def fgt : PyFloat → PyFloat → Bool
  | some a, some b => b < a
  | _, _ => false

/-- Models Python float multiplication: NaN propagates. -/
def fmul : PyFloat → PyFloat → PyFloat
  | some a, some b => some (a * b)
  | _, _ => none

/-- The mutable state of a `cobra.Model` that the search touches: which
genes are currently knocked out.  The baseline model has `knockedOut = ∅`
unless the caller already knocked genes out. -/
structure Model where
  knockedOut : GeneSet
deriving DecidableEq

/-- The external optimization machinery (cobra solver back end), abstracted:
`slimOptimize` is `m.slim_optimize(error_value=np.nan)` as a function of the
knocked-out gene set, and `potentiallyActive` is
`_get_potentially_active_genes` (pFBA flux filter mapped to gene ids), as the
list of genes in the order Python iterates the resulting set.  Both are
deterministic functions of the knockout set, matching the spec's
deterministic-Oracle assumption. -/
structure Solver where
  slimOptimize : GeneSet → PyFloat
  potentiallyActive : GeneSet → List Gene

/-- Models `cobra.manipulation.knock_out_model_genes(m, gene_list)`: each
listed gene is knocked out.  The source passes `list(gene_set)`; since the
listed genes are simply all knocked out, the list's (arbitrary set
iteration) order is irrelevant and the argument is modelled as the gene
set itself. -/
def knock_out_model_genes (m : Model) (gene_list : GeneSet) : Model :=
  ⟨m.knockedOut ∪ gene_list⟩

/-- Models `m.genes.get_by_id(gene).knock_out()`. -/
def Model.knockOutGene (m : Model) (g : Gene) : Model :=
  ⟨insert g m.knockedOut⟩

/-- Models `with model as m: body` — the body receives the model, may
mutate its private working copy, and every mutation is reverted when the
block exits (on every exit path), so the caller's model is returned
unchanged alongside the body's result. -/
def withModelScope {α : Type} (model : Model) (body : Model → α × Model) :
    α × Model :=
  ((body model).1, model)

/-- Models `_is_essential(model, gene, essential_cutoff)`: knock out the one
extra gene inside a scoped copy, optimize, and classify.  The trailing
`else` models the `raise RuntimeError(...)` branch. -/
def is_essential (s : Solver) (model : Model) (gene : Gene)
    (essential_cutoff : PyFloat) : Except String Bool × Model :=
  withModelScope model (fun m0 =>
    let m := m0.knockOutGene gene
    let objective_value := s.slimOptimize m.knockedOut
    (if fle objective_value essential_cutoff || isnan objective_value then
      Except.ok true
    else if fgt objective_value essential_cutoff then
      Except.ok false
    else
      Except.error "Error in finding essential gene function", m))

/-- Models the `for gene in potentially_active_genes:` loop in
`_process_gene_set_worker`: `m` is the working copy with `gene_set` already
knocked out.  Returns the lists of combinations appended to the results list
and put on the queue, in iteration order, or the propagated exception. -/
def expandCandidates (s : Solver) (max_depth : ℕ) (essential_cutoff : PyFloat)
    (m : Model) (gene_set : GeneSet) :
    List Gene → Except String (List GeneSet × List GeneSet)
  | [] => Except.ok ([], [])
  | gene :: rest =>
    let new_set := gene_set ∪ {gene}
    if new_set ≠ gene_set ∧ new_set.card ≤ max_depth then
      match (is_essential s m gene essential_cutoff).1 with
      | Except.error e => Except.error e
      | Except.ok true =>
        match expandCandidates s max_depth essential_cutoff m gene_set rest with
        | Except.error e => Except.error e
        | Except.ok p => Except.ok (new_set :: p.1, p.2)
      | Except.ok false =>
        match expandCandidates s max_depth essential_cutoff m gene_set rest with
        | Except.error e => Except.error e
        | Except.ok p => Except.ok (p.1, new_set :: p.2)
    else
      expandCandidates s max_depth essential_cutoff m gene_set rest

/-- One iteration body of `_process_gene_set_worker` for a popped
`gene_set`, i.e. the whole `with model as m:` block: knock out the set on a
scoped copy, optimize, and either record the set as lethal or expand it.
Returns (appended results, enqueued children) or the exception, plus the
model as the loop sees it after the block. -/
def processGeneSetStep (s : Solver) (max_depth : ℕ)
    (essential_cutoff : PyFloat) (model : Model) (gene_set : GeneSet) :
    Except String (List GeneSet × List GeneSet) × Model :=
  withModelScope model (fun m0 =>
    let m := knock_out_model_genes m0 gene_set
    let objective_value := s.slimOptimize m.knockedOut
    (if isnan objective_value || fle objective_value essential_cutoff then
      Except.ok ([gene_set], [])
    else
      expandCandidates s max_depth essential_cutoff m gene_set
        (s.potentiallyActive m.knockedOut), m))

/-- The shared state: the FIFO frontier queue (`manager.Queue()`) and the
shared results list (`manager.list()`). -/
structure SearchState where
  queue : List GeneSet
  results : List GeneSet
deriving DecidableEq

/-- Models the `while True:` loop of `_process_gene_set_worker`: pop from
the front of the FIFO queue (non-blocking `get_nowait`), exit on `Empty`,
otherwise process the popped set, appending results and putting children at
the back of the queue.  `fuel` bounds the number of iterations; `none`
means the fuel ran out (the loop did not yet finish). -/
def process_gene_set_worker (s : Solver) (max_depth : ℕ)
    (essential_cutoff : PyFloat) :
    ℕ → Model → SearchState → Option (Except String (List GeneSet) × Model)
  | 0, _, _ => none
  | fuel + 1, model, st =>
    match st.queue with
    | [] => some (Except.ok st.results, model)
    | gene_set :: rest =>
      match processGeneSetStep s max_depth essential_cutoff model gene_set with
      | (Except.error e, model1) => some (Except.error e, model1)
      | (Except.ok (newResults, newQueue), model1) =>
        process_gene_set_worker s max_depth essential_cutoff fuel model1
          ⟨rest ++ newQueue, st.results ++ newResults⟩

/-- Models the `futures = [executor.submit(_process_gene_set_worker, ...)]`
list literal in `find_synthetic_lethal_genes`: the list of worker tasks
submitted to the `ProcessPoolExecutor(max_workers=processes)`.  It is a
one-element list literal; `processes` only sizes the pool. -/
def submitted_futures (s : Solver) (max_depth : ℕ)
    (essential_cutoff : PyFloat) (processes : Option ℕ) :
    List (ℕ → Model → SearchState →
      Option (Except String (List GeneSet) × Model)) :=
  [process_gene_set_worker s max_depth essential_cutoff]

/-- Models `find_synthetic_lethal_genes`: compute the essential cutoff from
the baseline objective, seed the queue with one singleton per potentially
active gene of the baseline, and run the worker loop to completion.
`processes` is the worker-count parameter (it only sizes the executor pool;
a single worker task is submitted).  `fuel` bounds loop iterations. -/
def find_synthetic_lethal_genes (s : Solver) (model : Model) (max_depth : ℕ)
    (essential_proportion : ℚ) (processes : Option ℕ) (fuel : ℕ) :
    Option (Except String (List GeneSet) × Model) :=
  let essential_cutoff :=
    fmul (some essential_proportion) (s.slimOptimize model.knockedOut)
  let seeds := (s.potentiallyActive model.knockedOut).map
    (fun g => ({g} : GeneSet))
  process_gene_set_worker s max_depth essential_cutoff fuel model
    ⟨seeds, []⟩

/-! ### Termination measure -/

/-- Weight of a pending combination: exponential in the remaining depth,
with base one more than the per-expansion candidate bound `B`. -/
def comboWeight (B d : ℕ) (C : GeneSet) : ℕ :=
  (B + 1) ^ (d + 1 - C.card)

/-- Total weight of the frontier queue. -/
def queueWeight (B d : ℕ) (q : List GeneSet) : ℕ :=
  (q.map (comboWeight B d)).sum

/-! ### Specification-side selectors for the expansion policy -/

/-- The child recorded directly on the results list (without queueing) for
one candidate gene: present exactly when the child differs from its parent,
respects the depth bound, and the single-item essentiality pre-check in the
parent background reports essential. -/
def directResultChild (s : Solver) (d : ℕ) (c : PyFloat) (m : Model)
    (gene_set : GeneSet) (gene : Gene) : Option GeneSet :=
  if gene_set ∪ {gene} ≠ gene_set ∧ (gene_set ∪ {gene}).card ≤ d ∧
      (is_essential s m gene c).1 = Except.ok true then
    some (gene_set ∪ {gene})
  else none

/-- The child pushed onto the frontier queue for one candidate gene:
present exactly when the child differs from its parent, respects the depth
bound, and the single-item essentiality pre-check reports not essential. -/
def queuedChild (s : Solver) (d : ℕ) (c : PyFloat) (m : Model)
    (gene_set : GeneSet) (gene : Gene) : Option GeneSet :=
  if gene_set ∪ {gene} ≠ gene_set ∧ (gene_set ∪ {gene}).card ≤ d ∧
      (is_essential s m gene c).1 = Except.ok false then
    some (gene_set ∪ {gene})
  else none

/-! ### Concrete solvers used in counterexamples and witnesses -/

/-- A solver whose baseline has no potentially active genes at all
(empty depth-1 candidate set) and a feasible objective everywhere. -/
def solverEmpty : Solver where
  slimOptimize := fun _ => some 10
  potentiallyActive := fun _ => []

/-- A solver with constant objective 1 and no candidates; used to exhibit
the reachable `RuntimeError` branch of `_is_essential`. -/
def solverOne : Solver where
  slimOptimize := fun _ => some 1
  potentiallyActive := fun _ => []

/-- A solver over genes `a`, `b`: the baseline objective is 1, knocking out
`a` makes the problem infeasible (NaN objective), any other knockout keeps
objective 10; both genes are always potentially active. -/
def solverAB : Solver where
  slimOptimize := fun ko =>
    if "a" ∈ ko then none else if ko = ∅ then some 1 else some 10
  potentiallyActive := fun _ => ["a", "b"]

/-- The concrete run used by several witnesses: baseline `∅`, `max_depth
1`, `essential_proportion 1`, enough fuel.  Gene `a` is lethal (infeasible
knockout), gene `b` is not (objective 10 above the cutoff 1·1). -/
theorem solverAB_run :
    find_synthetic_lethal_genes solverAB ⟨∅⟩ 1 1 none 3 =
      some (Except.ok [{"a"}], ⟨∅⟩) := by
  have h : fmul (some 1) (solverAB.slimOptimize (∅ : GeneSet)) = some 1 := by
    norm_num [fmul, solverAB]
  simp only [find_synthetic_lethal_genes]
  rw [h]
  decide

/-! ### Basic lemmas about the scoped evaluations -/

/-- The function `_is_essential` restores the model on every exit path. -/
theorem is_essential_snd (s : Solver) (m : Model) (g : Gene) (c : PyFloat) :
    (is_essential s m g c).2 = m := rfl

/-- The worker's per-combination `with model as m:` block restores the
model on every exit path. -/
theorem processGeneSetStep_snd (s : Solver) (d : ℕ) (c : PyFloat)
    (model : Model) (C : GeneSet) :
    (processGeneSetStep s d c model C).2 = model := rfl

/-- With a non-NaN cutoff, `_is_essential` always returns a boolean: the
two guards cover every objective value. -/
theorem is_essential_total (s : Solver) (m : Model) (g : Gene) (c : ℚ) :
    (is_essential s m g (some c)).1 = Except.ok true ∨
    (is_essential s m g (some c)).1 = Except.ok false := by
  unfold is_essential withModelScope
  rcases h : s.slimOptimize (m.knockOutGene g).knockedOut with _ | a
  · left
    simp [h, fle, isnan]
  · by_cases hle : a ≤ c
    · left
      simp [h, fle, isnan, hle]
    · right
      simp [h, fle, fgt, isnan, hle, lt_of_not_le hle]

/-- When the popped combination is lethal (NaN or objective at most the
cutoff), the step records exactly that combination and enqueues nothing. -/
theorem processGeneSetStep_lethal (s : Solver) (d : ℕ) (c : PyFloat)
    (model : Model) (C : GeneSet)
    (h : (isnan (s.slimOptimize (model.knockedOut ∪ C)) ||
      fle (s.slimOptimize (model.knockedOut ∪ C)) c) = true) :
    processGeneSetStep s d c model C = (Except.ok ([C], []), model) := by
  unfold processGeneSetStep withModelScope knock_out_model_genes
  simp [h]

/-- When the popped combination is not lethal, the step is the candidate
expansion loop run on the knocked-out working copy. -/
theorem processGeneSetStep_not_lethal (s : Solver) (d : ℕ) (c : PyFloat)
    (model : Model) (C : GeneSet)
    (h : (isnan (s.slimOptimize (model.knockedOut ∪ C)) ||
      fle (s.slimOptimize (model.knockedOut ∪ C)) c) = false) :
    processGeneSetStep s d c model C =
      (expandCandidates s d c ⟨model.knockedOut ∪ C⟩ C
        (s.potentiallyActive (model.knockedOut ∪ C)), model) := by
  unfold processGeneSetStep withModelScope knock_out_model_genes
  simp [h]

/-- A combination already at (or beyond) the depth bound expands to
nothing: every child is skipped by the `new_set != gene_set and
len(new_set) <= max_depth` guard. -/
theorem expandCandidates_at_capacity (s : Solver) (d : ℕ) (c : PyFloat)
    (C : GeneSet) (h : d ≤ C.card) :
    ∀ (m : Model) (L : List Gene),
      expandCandidates s d c m C L = Except.ok ([], []) := by
  intro m L
  induction L generalizing m with
  | nil => rfl
  | cons g rest ih =>
    have hcond : ¬(C ∪ {g} ≠ C ∧ (C ∪ {g}).card ≤ d) := by
      rintro ⟨hne, hcard⟩
      have hss : C ⊂ C ∪ {g} :=
        Finset.ssubset_iff_subset_ne.mpr ⟨Finset.subset_union_left, Ne.symm hne⟩
      have := Finset.card_lt_card hss
      omega
    simp only [expandCandidates, if_neg hcond]
    exact ih m

/-- Adding one gene to a combination is a `Finset.insert`. -/
theorem union_singleton_eq_insert (C : GeneSet) (g : Gene) :
    C ∪ {g} = insert g C := by
  ext x
  simp [or_comm]

/-- A child that differs from its parent has exactly one more gene. -/
theorem child_card (C : GeneSet) (g : Gene) (hne : C ∪ {g} ≠ C) :
    (C ∪ {g}).card = C.card + 1 := by
  have hg : g ∉ C := by
    intro hgmem
    exact hne (Finset.union_eq_left.mpr (Finset.singleton_subset_iff.mpr hgmem))
  rw [union_singleton_eq_insert, Finset.card_insert_of_not_mem hg]

/-- Every child produced by the expansion loop is its parent plus one new
gene and respects the depth bound; at most one child is enqueued per
candidate gene. -/
theorem expandCandidates_spec (s : Solver) (d : ℕ) (c : PyFloat)
    (C : GeneSet) : ∀ (L : List Gene) (m : Model) (nr nq : List GeneSet),
    expandCandidates s d c m C L = Except.ok (nr, nq) →
    (∀ X ∈ nr, X.card = C.card + 1 ∧ X.card ≤ d) ∧
    (∀ X ∈ nq, X.card = C.card + 1 ∧ X.card ≤ d) ∧
    nq.length ≤ L.length := by
  intro L
  induction L with
  | nil =>
    intro m nr nq h
    simp only [expandCandidates, Except.ok.injEq, Prod.mk.injEq] at h
    obtain ⟨h1, h2⟩ := h
    subst h1; subst h2
    simp
  | cons g rest ih =>
    intro m nr nq h
    simp only [expandCandidates] at h
    by_cases hcond : (C ∪ {g} ≠ C ∧ (C ∪ {g}).card ≤ d)
    · rw [if_pos hcond] at h
      have hcard : (C ∪ {g}).card = C.card + 1 := child_card C g hcond.1
      split at h
      · exact absurd h (by simp)
      · split at h
        · exact absurd h (by simp)
        · rename_i p hrec
          obtain ⟨h1, h2, h3⟩ := ih m p.1 p.2 (by rw [hrec])
          simp only [Except.ok.injEq, Prod.mk.injEq] at h
          obtain ⟨hnr, hnq⟩ := h
          subst hnr; subst hnq
          refine ⟨?_, h2, Nat.le_succ_of_le h3⟩
          intro X hX
          rcases List.mem_cons.mp hX with rfl | hX1
          · exact ⟨hcard, hcard ▸ hcond.2⟩
          · exact h1 X hX1
      · split at h
        · exact absurd h (by simp)
        · rename_i p hrec
          obtain ⟨h1, h2, h3⟩ := ih m p.1 p.2 (by rw [hrec])
          simp only [Except.ok.injEq, Prod.mk.injEq] at h
          obtain ⟨hnr, hnq⟩ := h
          subst hnr; subst hnq
          refine ⟨h1, ?_, by simpa using Nat.succ_le_succ h3⟩
          intro X hX
          rcases List.mem_cons.mp hX with rfl | hX1
          · exact ⟨hcard, hcard ▸ hcond.2⟩
          · exact h2 X hX1
    · rw [if_neg hcond] at h
      obtain ⟨h1, h2, h3⟩ := ih m nr nq h
      exact ⟨h1, h2, Nat.le_succ_of_le h3⟩

/-- Combinations a successful step enqueues: one more gene than the popped
combination, within the depth bound, and at most one per candidate gene of
the perturbed working copy. -/
theorem processGeneSetStep_queue_spec (s : Solver) (d : ℕ) (c : PyFloat)
    (model : Model) (C : GeneSet) (nr nq : List GeneSet) (m2 : Model)
    (h : processGeneSetStep s d c model C = (Except.ok (nr, nq), m2)) :
    (∀ X ∈ nq, X.card = C.card + 1 ∧ X.card ≤ d) ∧
    nq.length ≤ (s.potentiallyActive (model.knockedOut ∪ C)).length := by
  by_cases hl : (isnan (s.slimOptimize (model.knockedOut ∪ C)) ||
      fle (s.slimOptimize (model.knockedOut ∪ C)) c) = true
  · rw [processGeneSetStep_lethal s d c model C hl] at h
    simp only [Prod.mk.injEq, Except.ok.injEq] at h
    obtain ⟨⟨h1, h2⟩, h3⟩ := h
    subst h2
    simp
  · simp only [Bool.not_eq_true] at hl
    rw [processGeneSetStep_not_lethal s d c model C hl] at h
    simp only [Prod.mk.injEq] at h
    obtain ⟨g1, g2, g3⟩ := expandCandidates_spec s d c C _ _ nr nq h.1
    exact ⟨g2, g3⟩

/-- Combinations a successful step appends to the results list stay within
the depth bound, provided the popped combination does. -/
theorem processGeneSetStep_results_spec (s : Solver) (d : ℕ) (c : PyFloat)
    (model : Model) (C : GeneSet) (nr nq : List GeneSet) (m2 : Model)
    (hC : C.card ≤ d)
    (h : processGeneSetStep s d c model C = (Except.ok (nr, nq), m2)) :
    ∀ X ∈ nr, X.card ≤ d := by
  by_cases hl : (isnan (s.slimOptimize (model.knockedOut ∪ C)) ||
      fle (s.slimOptimize (model.knockedOut ∪ C)) c) = true
  · rw [processGeneSetStep_lethal s d c model C hl] at h
    simp only [Prod.mk.injEq, Except.ok.injEq] at h
    obtain ⟨⟨h1, h2⟩, h3⟩ := h
    subst h1
    simpa using hC
  · simp only [Bool.not_eq_true] at hl
    rw [processGeneSetStep_not_lethal s d c model C hl] at h
    simp only [Prod.mk.injEq] at h
    obtain ⟨g1, g2, g3⟩ := expandCandidates_spec s d c C _ _ nr nq h.1
    exact fun X hX => (g1 X hX).2

theorem comboWeight_pos (B d : ℕ) (C : GeneSet) : 0 < comboWeight B d C :=
  Nat.pos_pow_of_pos _ (Nat.succ_pos B)

theorem queueWeight_append (B d : ℕ) (q1 q2 : List GeneSet) :
    queueWeight B d (q1 ++ q2) = queueWeight B d q1 + queueWeight B d q2 := by
  simp [queueWeight]

/-- The combinations a successful step enqueues weigh strictly less than
the combination it consumed. -/
theorem processGeneSetStep_weight (s : Solver) (d : ℕ) (c : PyFloat)
    (model : Model) (C : GeneSet) (nr nq : List GeneSet) (m2 : Model)
    (B : ℕ) (hB : ∀ ko, (s.potentiallyActive ko).length ≤ B)
    (h : processGeneSetStep s d c model C = (Except.ok (nr, nq), m2)) :
    queueWeight B d nq < comboWeight B d C := by
  obtain ⟨hq, hlen⟩ := processGeneSetStep_queue_spec s d c model C nr nq m2 h
  rcases hnq : nq with _ | ⟨X0, nq1⟩
  · simpa [queueWeight] using comboWeight_pos B d C
  · subst hnq
    have hClt : C.card < d := by
      obtain ⟨e1, e2⟩ := hq X0 (List.mem_cons_self X0 nq1)
      omega
    have hw : ∀ X ∈ X0 :: nq1, comboWeight B d X = (B + 1) ^ (d - C.card) := by
      intro X hX
      obtain ⟨e1, e2⟩ := hq X hX
      unfold comboWeight
      rw [e1]
      congr 1
      omega
    have hsum : queueWeight B d (X0 :: nq1) ≤
        (X0 :: nq1).length * (B + 1) ^ (d - C.card) := by
      unfold queueWeight
      have := List.sum_le_card_nsmul ((X0 :: nq1).map (comboWeight B d))
        ((B + 1) ^ (d - C.card)) (by
          intro x hx
          obtain ⟨X, hX, rfl⟩ := List.mem_map.mp hx
          exact (hw X hX).le)
      simpa [smul_eq_mul] using this
    have hlenB : (X0 :: nq1).length ≤ B := le_trans hlen (hB _)
    have hpow : comboWeight B d C = (B + 1) * (B + 1) ^ (d - C.card) := by
      unfold comboWeight
      rw [show d + 1 - C.card = (d - C.card) + 1 by omega, pow_succ]
      ring
    calc queueWeight B d (X0 :: nq1)
        ≤ (X0 :: nq1).length * (B + 1) ^ (d - C.card) := hsum
      _ ≤ B * (B + 1) ^ (d - C.card) :=
          Nat.mul_le_mul_right _ hlenB
      _ < (B + 1) * (B + 1) ^ (d - C.card) :=
          (Nat.mul_lt_mul_right (Nat.pos_pow_of_pos _ (Nat.succ_pos B))).mpr
            (Nat.lt_succ_self B)
      _ = comboWeight B d C := hpow.symm

theorem queueWeight_cons (B d : ℕ) (C : GeneSet) (q : List GeneSet) :
    queueWeight B d (C :: q) = comboWeight B d C + queueWeight B d q := by
  simp [queueWeight]

/-! ### Worker-loop lemmas -/

/-- The worker loop finishes once the fuel exceeds the queue weight: every
iteration strictly decreases the total weight of the frontier queue. -/
theorem worker_isSome (s : Solver) (d : ℕ) (c : PyFloat) (B : ℕ)
    (hB : ∀ ko, (s.potentiallyActive ko).length ≤ B) :
    ∀ (fuel : ℕ) (model : Model) (st : SearchState),
      queueWeight B d st.queue < fuel →
      (process_gene_set_worker s d c fuel model st).isSome = true := by
  intro fuel
  induction fuel with
  | zero =>
    intro model st h
    exact absurd h (Nat.not_lt_zero _)
  | succ fuel ih =>
    intro model st h
    rcases st with ⟨qs, rs⟩
    rcases qs with _ | ⟨C, rest⟩
    · simp [process_gene_set_worker]
    · simp only [process_gene_set_worker]
      rcases hstep : processGeneSetStep s d c model C with ⟨r, m1⟩
      cases r with
      | error e => simp
      | ok p =>
        rcases p with ⟨nr, nq⟩
        simp only []
        apply ih
        have hw := processGeneSetStep_weight s d c model C nr nq m1 B hB hstep
        have hsplit := queueWeight_cons B d C rest
        simp only [] at h
        rw [queueWeight_append]
        simp only [] at hsplit ⊢
        omega

/-- All results returned by the worker loop respect the depth bound when
the queue and results it starts from do. -/
theorem worker_results_card (s : Solver) (d : ℕ) (c : PyFloat) :
    ∀ (fuel : ℕ) (model : Model) (st : SearchState)
      (res : List GeneSet) (m2 : Model),
      (∀ X ∈ st.queue, X.card ≤ d) → (∀ X ∈ st.results, X.card ≤ d) →
      process_gene_set_worker s d c fuel model st =
        some (Except.ok res, m2) →
      ∀ X ∈ res, X.card ≤ d := by
  intro fuel
  induction fuel with
  | zero =>
    intro model st res m2 _ _ h
    simp [process_gene_set_worker] at h
  | succ fuel ih =>
    intro model st res m2 hq hr h
    rcases st with ⟨qs, rs⟩
    rcases qs with _ | ⟨C, rest⟩
    · simp only [process_gene_set_worker, Option.some.injEq, Prod.mk.injEq,
        Except.ok.injEq] at h
      obtain ⟨h1, h2⟩ := h
      subst h1
      exact hr
    · simp only [process_gene_set_worker] at h
      rcases hstep : processGeneSetStep s d c model C with ⟨r, m1⟩
      rw [hstep] at h
      cases r with
      | error e => simp at h
      | ok p =>
        rcases p with ⟨nr, nq⟩
        simp only [] at h
        have hC : C.card ≤ d := hq C (List.mem_cons_self C rest)
        have hrs := processGeneSetStep_results_spec s d c model C nr nq m1
          hC hstep
        have hqs := processGeneSetStep_queue_spec s d c model C nr nq m1 hstep
        refine ih m1 ⟨rest ++ nq, rs ++ nr⟩ res m2 ?_ ?_ h
        · intro X hX
          rcases List.mem_append.mp hX with hX1 | hX2
          · exact hq X (List.mem_cons_of_mem C hX1)
          · exact (hqs.1 X hX2).2
        · intro X hX
          rcases List.mem_append.mp hX with hX1 | hX2
          · exact hr X hX1
          · exact hrs X hX2

/-- The worker loop hands back the model it was given: every per-iteration
scope restores it. -/
theorem worker_model_eq (s : Solver) (d : ℕ) (c : PyFloat) :
    ∀ (fuel : ℕ) (model : Model) (st : SearchState)
      (r : Except String (List GeneSet)) (m2 : Model),
      process_gene_set_worker s d c fuel model st = some (r, m2) →
      m2 = model := by
  intro fuel
  induction fuel with
  | zero =>
    intro model st r m2 h
    simp [process_gene_set_worker] at h
  | succ fuel ih =>
    intro model st r m2 h
    rcases st with ⟨qs, rs⟩
    rcases qs with _ | ⟨C, rest⟩
    · simp only [process_gene_set_worker, Option.some.injEq,
        Prod.mk.injEq] at h
      exact h.2.symm
    · simp only [process_gene_set_worker] at h
      rcases hstep : processGeneSetStep s d c model C with ⟨r1, m1⟩
      have hm1 : m1 = model := by
        have := congrArg Prod.snd hstep
        simpa [processGeneSetStep_snd] using this.symm
      rw [hstep] at h
      cases r1 with
      | error e =>
        simp only [Option.some.injEq, Prod.mk.injEq] at h
        rw [← h.2, hm1]
      | ok p =>
        rcases p with ⟨nr, nq⟩
        simp only [] at h
        rw [ih m1 ⟨rest ++ nq, rs ++ nr⟩ r m2 h, hm1]

/-- With `max_depth = 0` the worker loop can only finish normally: no
child passes the depth guard, so `_is_essential` (the only raising call)
is never reached. -/
theorem worker_ok_depth_zero (s : Solver) (c : PyFloat) :
    ∀ (fuel : ℕ) (model : Model) (st : SearchState)
      (r : Except String (List GeneSet)) (m2 : Model),
      process_gene_set_worker s 0 c fuel model st = some (r, m2) →
      ∃ res, r = Except.ok res := by
  intro fuel
  induction fuel with
  | zero =>
    intro model st r m2 h
    simp [process_gene_set_worker] at h
  | succ fuel ih =>
    intro model st r m2 h
    rcases st with ⟨qs, rs⟩
    rcases qs with _ | ⟨C, rest⟩
    · simp only [process_gene_set_worker, Option.some.injEq,
        Prod.mk.injEq] at h
      exact ⟨rs, h.1.symm⟩
    · simp only [process_gene_set_worker] at h
      by_cases hl : (isnan (s.slimOptimize (model.knockedOut ∪ C)) ||
          fle (s.slimOptimize (model.knockedOut ∪ C)) c) = true
      · rw [processGeneSetStep_lethal s 0 c model C hl] at h
        simp only [] at h
        exact ih model ⟨rest ++ [], rs ++ [C]⟩ r m2 h
      · simp only [Bool.not_eq_true] at hl
        rw [processGeneSetStep_not_lethal s 0 c model C hl,
          expandCandidates_at_capacity s 0 c C (Nat.zero_le _)] at h
        simp only [] at h
        exact ih model ⟨rest ++ [], rs ++ []⟩ r m2 h

/-- With `max_depth = 1` a queue of singleton seeds is processed into
exactly the lethal seeds, appended in order to the accumulated results: a
lethal seed is recorded, a non-lethal one expands to nothing because every
child would have two genes. -/
theorem worker_singletons (s : Solver) (c : PyFloat) :
    ∀ (gs : List Gene) (fuel : ℕ) (model : Model) (R : List GeneSet),
      gs.length + 1 ≤ fuel →
      process_gene_set_worker s 1 c fuel model
        ⟨gs.map (fun g => ({g} : GeneSet)), R⟩ =
      some (Except.ok (R ++ (gs.filter (fun g =>
        isnan (s.slimOptimize (model.knockedOut ∪ {g})) ||
        fle (s.slimOptimize (model.knockedOut ∪ {g})) c)).map
          (fun g => ({g} : GeneSet))), model) := by
  intro gs
  induction gs with
  | nil =>
    intro fuel model R hfuel
    obtain ⟨fuel1, rfl⟩ : ∃ f, fuel = f + 1 := ⟨fuel - 1, by omega⟩
    simp [process_gene_set_worker]
  | cons g rest ih =>
    intro fuel model R hfuel
    obtain ⟨fuel1, rfl⟩ : ∃ f, fuel = f + 1 := ⟨fuel - 1, by omega⟩
    simp only [List.map_cons, process_gene_set_worker]
    have hfuel1 : rest.length + 1 ≤ fuel1 := by
      simp only [List.length_cons] at hfuel
      omega
    by_cases hl : (isnan (s.slimOptimize (model.knockedOut ∪ {g})) ||
        fle (s.slimOptimize (model.knockedOut ∪ {g})) c) = true
    · rw [processGeneSetStep_lethal s 1 c model {g} hl]
      simp only [List.append_nil]
      rw [ih fuel1 model (R ++ [({g} : GeneSet)]) hfuel1]
      simp [List.filter_cons, hl]
    · have hl2 : (isnan (s.slimOptimize (model.knockedOut ∪ {g})) ||
          fle (s.slimOptimize (model.knockedOut ∪ {g})) c) = false := by
        revert hl
        cases isnan (s.slimOptimize (model.knockedOut ∪ {g})) ||
          fle (s.slimOptimize (model.knockedOut ∪ {g})) c <;> simp
      rw [processGeneSetStep_not_lethal s 1 c model {g} hl2,
        expandCandidates_at_capacity s 1 c {g} (by simp)]
      simp only [List.append_nil]
      rw [ih fuel1 model R hfuel1]
      simp [List.filter_cons, hl2]

/-- With a non-NaN cutoff the expansion loop never raises, and its outputs
are exactly characterized: the directly recorded children and the queued
children are the `filterMap`s of the two selectors over the candidate
list, in iteration order. -/
theorem expandCandidates_filterMap (s : Solver) (d : ℕ) (cq : ℚ)
    (m : Model) (gene_set : GeneSet) :
    ∀ L : List Gene,
      expandCandidates s d (some cq) m gene_set L =
        Except.ok
          (L.filterMap (directResultChild s d (some cq) m gene_set),
           L.filterMap (queuedChild s d (some cq) m gene_set)) := by
  intro L
  induction L with
  | nil => rfl
  | cons g rest ih =>
    simp only [expandCandidates, List.filterMap_cons]
    by_cases hcond : (gene_set ∪ {g} ≠ gene_set ∧ (gene_set ∪ {g}).card ≤ d)
    · rw [if_pos hcond]
      rcases is_essential_total s m g cq with hE | hE <;> rw [hE, ih]
      · have hd : directResultChild s d (some cq) m gene_set g =
            some (gene_set ∪ {g}) := by
          unfold directResultChild
          rw [if_pos ⟨hcond.1, hcond.2, hE⟩]
        have hq : queuedChild s d (some cq) m gene_set g = none := by
          unfold queuedChild
          rw [if_neg]
          rintro ⟨-, -, hbad⟩
          rw [hE] at hbad
          exact absurd (Except.ok.inj hbad) (by decide)
        rw [hd, hq]
      · have hd : directResultChild s d (some cq) m gene_set g = none := by
          unfold directResultChild
          rw [if_neg]
          rintro ⟨-, -, hbad⟩
          rw [hE] at hbad
          exact absurd (Except.ok.inj hbad) (by decide)
        have hq : queuedChild s d (some cq) m gene_set g =
            some (gene_set ∪ {g}) := by
          unfold queuedChild
          rw [if_pos ⟨hcond.1, hcond.2, hE⟩]
        rw [hd, hq]
    · rw [if_neg hcond, ih]
      have hd : directResultChild s d (some cq) m gene_set g = none := by
        unfold directResultChild
        rw [if_neg]
        rintro ⟨h1, h2, -⟩
        exact hcond ⟨h1, h2⟩
      have hq : queuedChild s d (some cq) m gene_set g = none := by
        unfold queuedChild
        rw [if_neg]
        rintro ⟨h1, h2, -⟩
        exact hcond ⟨h1, h2⟩
      rw [hd, hq]

/-! ### Claims -/

/-- C1: the spec claims `find_synthetic_lethal_genes` dispatches a pool of
`processes` concurrent workers over the shared queue.  In the source the
`futures` list literal submits exactly one worker task — for every solver,
depth, cutoff and requested process count — so only one worker ever runs
the loop (the pool is merely sized to `processes`). -/
theorem futures_list_is_singleton :
    (submitted_futures solverAB 3 (some 1) (some 2)).length = 1 ∧
    ∀ (s : Solver) (d : ℕ) (c : PyFloat) (p : Option ℕ),
      (submitted_futures s d c p).length = 1 :=
  ⟨rfl, fun _ _ _ _ => rfl⟩

/-- C2 counterexample: a call with `max_depth = 0` (below the documented
minimum 1), negative `essential_proportion`, and an empty initial candidate
set completes normally with an empty result list instead of reporting any
error before workers start. -/
theorem invalid_config_not_reported :
    find_synthetic_lethal_genes solverEmpty ⟨∅⟩ 0 (-1) none 1 =
      some (Except.ok [], ⟨∅⟩) := rfl

/-- C2 (amended): `find_synthetic_lethal_genes` performs no configuration
validation: whatever `max_depth` and `essential_proportion` are, when the
baseline yields zero depth-1 candidates the call silently returns an empty
list rather than raising a user-visible error. -/
theorem no_validation_empty_candidates (s : Solver) (model : Model)
    (d : ℕ) (p : ℚ) (proc : Option ℕ)
    (h : s.potentiallyActive model.knockedOut = []) :
    find_synthetic_lethal_genes s model d p proc 1 =
      some (Except.ok [], model) := by
  simp only [find_synthetic_lethal_genes]
  rw [h]
  simp [process_gene_set_worker]

/-- C2 witness for the amended claim at a concrete empty-candidate
baseline. -/
theorem no_validation_empty_candidates_witness :
    find_synthetic_lethal_genes solverEmpty ⟨∅⟩ 2 1 none 1 =
      some (Except.ok [], ⟨∅⟩) :=
  no_validation_empty_candidates solverEmpty ⟨∅⟩ 2 1 none rfl

/-- C3: a popped combination whose evaluation is lethal — objective NaN
(infeasible) or at most the essential cutoff — is appended to the results
and processing stops: nothing is enqueued, no candidate expansion and no
single-item pre-check happens for it. -/
theorem lethal_combination_is_terminal (s : Solver) (d : ℕ) (c : PyFloat)
    (model : Model) (C : GeneSet)
    (h : (isnan (s.slimOptimize (model.knockedOut ∪ C)) ||
      fle (s.slimOptimize (model.knockedOut ∪ C)) c) = true) :
    processGeneSetStep s d c model C = (Except.ok ([C], []), model) :=
  processGeneSetStep_lethal s d c model C h

/-- C3 witness: knocking out gene `a` is infeasible under `solverAB`, and
the step records `{a}` and enqueues nothing. -/
theorem lethal_combination_is_terminal_witness :
    (isnan (solverAB.slimOptimize ((∅ : GeneSet) ∪ {"a"})) ||
      fle (solverAB.slimOptimize ((∅ : GeneSet) ∪ {"a"})) (some 1)) = true ∧
    processGeneSetStep solverAB 3 (some 1) ⟨∅⟩ {"a"} =
      (Except.ok ([{"a"}], []), ⟨∅⟩) :=
  ⟨by decide,
    lethal_combination_is_terminal solverAB 3 (some 1) ⟨∅⟩ {"a"} (by decide)⟩

/-- C4: for a non-lethal popped combination, each candidate item produces
the child `C` plus the item; the child is skipped when it equals `C` or
exceeds `max_depth`, is appended directly to the results when the
single-item pre-check reports essential, and is pushed onto the queue
otherwise — exactly the two `filterMap`s of the selectors (stated for a
non-NaN cutoff, under which the pre-check never raises). -/
theorem expansion_policy (s : Solver) (d : ℕ) (cq : ℚ) (model : Model)
    (C : GeneSet)
    (h : (isnan (s.slimOptimize (model.knockedOut ∪ C)) ||
      fle (s.slimOptimize (model.knockedOut ∪ C)) (some cq)) = false) :
    processGeneSetStep s d (some cq) model C =
      (Except.ok
        ((s.potentiallyActive (model.knockedOut ∪ C)).filterMap
          (directResultChild s d (some cq) ⟨model.knockedOut ∪ C⟩ C),
         (s.potentiallyActive (model.knockedOut ∪ C)).filterMap
          (queuedChild s d (some cq) ⟨model.knockedOut ∪ C⟩ C)), model) := by
  rw [processGeneSetStep_not_lethal s d (some cq) model C h,
    expandCandidates_filterMap]

/-- C4 witness: under `solverAB` the non-lethal singleton `{b}` at depth 2
expands candidate `a` into the directly recorded child `{b, a}` (the
pre-check reports essential) while candidate `b` is skipped; nothing is
queued. -/
theorem expansion_policy_witness :
    (isnan (solverAB.slimOptimize ((∅ : GeneSet) ∪ {"b"})) ||
      fle (solverAB.slimOptimize ((∅ : GeneSet) ∪ {"b"})) (some 1)) = false ∧
    processGeneSetStep solverAB 2 (some 1) ⟨∅⟩ {"b"} =
      (Except.ok
        ((solverAB.potentiallyActive ((∅ : GeneSet) ∪ {"b"})).filterMap
          (directResultChild solverAB 2 (some 1) ⟨(∅ : GeneSet) ∪ {"b"}⟩ {"b"}),
         (solverAB.potentiallyActive ((∅ : GeneSet) ∪ {"b"})).filterMap
          (queuedChild solverAB 2 (some 1) ⟨(∅ : GeneSet) ∪ {"b"}⟩ {"b"})),
        ⟨∅⟩) :=
  ⟨by decide, expansion_policy solverAB 2 1 ⟨∅⟩ {"b"} (by decide)⟩

/-- C5: with `max_depth ≥ 1`, every combination in a successfully returned
result list has at most `max_depth` genes: seeds are singletons and both
recording paths respect the depth guard. -/
theorem returned_combinations_within_depth (s : Solver) (model : Model)
    (d : ℕ) (p : ℚ) (proc : Option ℕ) (fuel : ℕ)
    (res : List GeneSet) (m2 : Model) (hd : 1 ≤ d)
    (h : find_synthetic_lethal_genes s model d p proc fuel =
      some (Except.ok res, m2)) :
    ∀ C ∈ res, C.card ≤ d := by
  simp only [find_synthetic_lethal_genes] at h
  refine worker_results_card s d _ fuel model _ res m2 ?_ ?_ h
  · intro X hX
    simp only [List.mem_map] at hX
    obtain ⟨g, hg, rfl⟩ := hX
    simpa using hd
  · intro X hX
    simp at hX

/-- C5 witness at the concrete depth-1 run of `solverAB`. -/
theorem returned_combinations_within_depth_witness :
    ({"a"} : GeneSet).card ≤ 1 :=
  returned_combinations_within_depth solverAB ⟨∅⟩ 1 1 none 3 [{"a"}] ⟨∅⟩
    (by decide) solverAB_run {"a"} (by decide)

/-- C6: for a deterministic solver whose candidate lists are uniformly
bounded (finite item universe), the search terminates: some fuel makes the
single worker's pop-evaluate-expand loop drain the queue and return,
because every enqueued child strictly grows its parent within the depth
bound. -/
theorem search_terminates (s : Solver) (model : Model) (d : ℕ) (p : ℚ)
    (proc : Option ℕ) (B : ℕ)
    (hB : ∀ ko, (s.potentiallyActive ko).length ≤ B) :
    ∃ fuel,
      (find_synthetic_lethal_genes s model d p proc fuel).isSome = true := by
  refine ⟨queueWeight B d ((s.potentiallyActive model.knockedOut).map
    (fun g => ({g} : GeneSet))) + 1, ?_⟩
  simp only [find_synthetic_lethal_genes]
  exact worker_isSome s d _ B hB _ model _ (Nat.lt_succ_self _)

/-- C6 witness: `solverAB` always offers exactly two candidates, so the
depth-3 search terminates. -/
theorem search_terminates_witness :
    ∃ fuel,
      (find_synthetic_lethal_genes solverAB ⟨∅⟩ 3 1 none fuel).isSome =
        true :=
  search_terminates solverAB ⟨∅⟩ 3 1 none 2 (fun _ => Nat.le_refl 2)

/-- C7: all knockouts are applied inside scoped private working copies
restored on every exit path: `_is_essential` and the per-combination block
hand back the model unchanged, and a completed search returns the caller's
model exactly as it was. -/
theorem evaluations_restore_model (s : Solver) (d : ℕ) (c : PyFloat)
    (model : Model) (C : GeneSet) (g : Gene) (p : ℚ) (proc : Option ℕ)
    (fuel : ℕ) (r : Except String (List GeneSet)) (m2 : Model) :
    (is_essential s model g c).2 = model ∧
    (processGeneSetStep s d c model C).2 = model ∧
    (find_synthetic_lethal_genes s model d p proc fuel = some (r, m2) →
      m2 = model) := by
  refine ⟨rfl, rfl, fun h => ?_⟩
  simp only [find_synthetic_lethal_genes] at h
  exact worker_model_eq s d _ fuel model _ r m2 h

/-- C7 witness at concrete evaluations and the concrete depth-1 run. -/
theorem evaluations_restore_model_witness :
    (is_essential solverAB ⟨∅⟩ "b" (some 1)).2 = ⟨∅⟩ ∧
    (processGeneSetStep solverAB 1 (some 1) ⟨∅⟩ {"a"}).2 = ⟨∅⟩ ∧
    (⟨∅⟩ : Model) = ⟨∅⟩ := by
  obtain ⟨h1, h2, h3⟩ := evaluations_restore_model solverAB 1 (some 1) ⟨∅⟩
    {"a"} "b" 1 none 3 (Except.ok [{"a"}]) ⟨∅⟩
  exact ⟨h1, h2, h3 solverAB_run⟩

/-- C8: with `max_depth = 1` and enough fuel, the search returns exactly
the singletons of the lethal depth-1 seeds — the essential item set `E` —
in seed order, for every worker-count argument (the submitted work does
not depend on it): no larger combination is recorded or enqueued. -/
theorem depth_one_returns_lethal_singletons (s : Solver) (model : Model)
    (p : ℚ) (proc : Option ℕ) (fuel : ℕ)
    (hfuel : (s.potentiallyActive model.knockedOut).length + 1 ≤ fuel) :
    find_synthetic_lethal_genes s model 1 p proc fuel =
      some (Except.ok (((s.potentiallyActive model.knockedOut).filter
        (fun g => isnan (s.slimOptimize (model.knockedOut ∪ {g})) ||
          fle (s.slimOptimize (model.knockedOut ∪ {g}))
            (fmul (some p) (s.slimOptimize model.knockedOut)))).map
        (fun g => ({g} : GeneSet))), model) := by
  have h := worker_singletons s
    (fmul (some p) (s.slimOptimize model.knockedOut))
    (s.potentiallyActive model.knockedOut) fuel model [] hfuel
  simpa [find_synthetic_lethal_genes] using h

/-- C8 witness: under `solverAB` the lethal seed set is exactly `{a}`. -/
theorem depth_one_returns_lethal_singletons_witness :
    find_synthetic_lethal_genes solverAB ⟨∅⟩ 1 1 none 3 =
      some (Except.ok
        (((solverAB.potentiallyActive ((⟨∅⟩ : Model)).knockedOut).filter
          (fun g =>
            isnan (solverAB.slimOptimize
              ((⟨∅⟩ : Model).knockedOut ∪ {g})) ||
            fle (solverAB.slimOptimize ((⟨∅⟩ : Model).knockedOut ∪ {g}))
              (fmul (some 1)
                (solverAB.slimOptimize (⟨∅⟩ : Model).knockedOut)))).map
          (fun g => ({g} : GeneSet))), ⟨∅⟩) :=
  depth_one_returns_lethal_singletons solverAB ⟨∅⟩ 1 none 3 (by decide)

/-- C9 counterexample: the claim quantifies over every `essential_cutoff`,
but with a NaN cutoff (essential_proportion times a NaN baseline
objective) and a finite objective all three float guards are false and
`_is_essential` reaches its trailing RuntimeError branch. -/
theorem is_essential_error_reachable :
    (is_essential solverOne ⟨∅⟩ "g" none).1 =
      Except.error "Error in finding essential gene function" := rfl

/-- C9 (amended): for every model, gene and *non-NaN* essential_cutoff the
guards `objective <= cutoff or NaN` and `objective > cutoff` cover every
objective value, so `_is_essential` returns a boolean and never reaches
the RuntimeError branch; the branch is reachable only for a NaN cutoff. -/
theorem is_essential_returns_bool (s : Solver) (m : Model) (g : Gene)
    (c : ℚ) :
    (is_essential s m g (some c)).1 = Except.ok true ∨
    (is_essential s m g (some c)).1 = Except.ok false :=
  is_essential_total s m g c

/-- C10: calling with `max_depth = 0` raises no error — size-1 seeds are
enqueued and evaluated without any depth check, the `|child| <= max_depth`
guard applying only to expansion children — and the returned list can
contain a combination of size `1 > 0`. -/
theorem depth_zero_runs_normally :
    (∀ (s : Solver) (model : Model) (p : ℚ) (proc : Option ℕ) (fuel : ℕ)
      (r : Except String (List GeneSet)) (m2 : Model),
      find_synthetic_lethal_genes s model 0 p proc fuel = some (r, m2) →
      ∃ res, r = Except.ok res) ∧
    find_synthetic_lethal_genes solverAB ⟨∅⟩ 0 1 none 3 =
      some (Except.ok [{"a"}], ⟨∅⟩) ∧
    0 < ({"a"} : GeneSet).card := by
  refine ⟨?_, ?_, by decide⟩
  · intro s model p proc fuel r m2 h
    simp only [find_synthetic_lethal_genes] at h
    exact worker_ok_depth_zero s _ fuel model _ r m2 h
  · have h : fmul (some 1) (solverAB.slimOptimize (∅ : GeneSet)) = some 1 := by
      norm_num [fmul, solverAB]
    simp only [find_synthetic_lethal_genes]
    rw [h]
    decide

/-- C10 witness: the implication applied at the concrete depth-0 run. -/
theorem depth_zero_runs_normally_witness :
    ∃ res, (Except.ok [({"a"} : GeneSet)] :
      Except String (List GeneSet)) = Except.ok res :=
  depth_zero_runs_normally.1 solverAB ⟨∅⟩ 1 none 3 (Except.ok [{"a"}]) ⟨∅⟩
    depth_zero_runs_normally.2.1

end Metworkpy
